import Mathlib

/-!
Verification of `otter/metrics.py`.

The module collects capacity metrics for "scaling groups" stored in a
hash-partitioned Cassandra table:

* `get_scaling_groups` walks the whole `scaling_group` table with a
  cursor-based page loop (an unconditioned first page, then
  `WHERE "tenantId"=:tenantId AND "groupId">:groupId` pages to drain the
  current tenant, then `WHERE token("tenantId") > token(:tenantId)` pages to
  jump to the following tenants), and filters the rows it collected;
* `get_tenant_metrics` turns one tenant's group rows plus its live servers
  (grouped by scaling-group id) into `GroupMetrics` tuples;
* `check_tenant_config` reports groups whose servers disagree on
  (flavor id, image id);
* `get_all_metrics` fans the enrichment call out over all tenants and fails
  as a whole if any tenant's enrichment fails;
* `main` sorts the metrics by capacity divergence, descending and stable.

The store is embedded as a list of rows sorted by
(token(tenantId), groupId).  Cassandra orders partitions by the (injective)
token of the partition key, so tenant ids are represented here directly in
token order: the cross-tenant condition `token("tenantId") > token(:t)`
becomes `tenantId > t`, and a row's sort key is (tenantId, groupId)
lexicographically.  Each `client.execute` of a SELECT with `LIMIT n` returns
the first `n` rows of the store that match the WHERE clause, in store order.

The scanner below is instrumented: it returns the list of executed queries
paired with the page each returned.  The list of rows the Python code
accumulates in `groups` is exactly the concatenation of all pages, since
the code appends every fetched batch to `groups` exactly once.
-/

set_option linter.unusedVariables false

/-- A row of the `scaling_group` table as returned by the SELECT in
`get_scaling_groups`: of the selected columns, `tenantId`, `groupId`,
`desired` and `created_at` are the ones the module reads (`desired` and
`created_at` are nullable; extra requested columns are not modelled). -/
structure SGRec where
  tenantId : Nat
  groupId : Nat
  desired : Option Int
  created_at : Option Nat
deriving DecidableEq, Repr

/-- Strict store order on rows: by tenant token, then by group id.
Distinct rows of the table always have distinct (tenantId, groupId)
primary keys, so the store is strictly sorted by this order. -/
def keyLt (a b : SGRec) : Prop :=
  a.tenantId < b.tenantId ∨ (a.tenantId = b.tenantId ∧ a.groupId < b.groupId)

instance : DecidableRel keyLt := fun a b => by unfold keyLt; exact inferInstance

/-- One of the three query shapes issued by `get_scaling_groups`, with the
values bound into its WHERE clause. -/
inductive Query where
  | all : Query
  | key : Nat → Nat → Query
  | token : Nat → Query
deriving DecidableEq, Repr

/-- WHERE clause of the within-tenant continuation:
`"tenantId"=:tenantId AND "groupId">:groupId`. -/
def pKey (t g : Nat) (r : SGRec) : Bool :=
  r.tenantId == t && decide (g < r.groupId)

/-- WHERE clause of the cross-tenant continuation:
`token("tenantId") > token(:tenantId)`, in token order. -/
def pToken (t : Nat) (r : SGRec) : Bool :=
  decide (t < r.tenantId)

/-- The unconditioned `SELECT ... LIMIT :limit`. -/
def execAll (rows : List SGRec) (limit : Nat) : List SGRec :=
  rows.take limit

/-- The within-tenant continuation `SELECT ... WHERE "tenantId"=:tenantId AND
"groupId">:groupId LIMIT :limit`. -/
def execKey (rows : List SGRec) (t g limit : Nat) : List SGRec :=
  (rows.filter (pKey t g)).take limit

/-- The cross-tenant continuation `SELECT ... WHERE token("tenantId") >
token(:tenantId) LIMIT :limit`. -/
def execToken (rows : List SGRec) (t limit : Nat) : List SGRec :=
  (rows.filter (pToken t)).take limit

/-- Default row, used only as the default of `List.getLastD`. -/
def dfltRec : SGRec := ⟨0, 0, none, none⟩

/-- Helper for the termination of the page loops: a filter with a strictly
stronger predicate that loses at least one concrete member is strictly
shorter. -/
theorem length_filter_strict {α : Type} (l : List α) (p q : α → Bool) (a : α)
    (himp : ∀ x, q x = true → p x = true) (ha : a ∈ l) (hpa : p a = true)
    (hqa : q a = false) :
    (l.filter q).length < (l.filter p).length := by
  have h1 : l.filter q = (l.filter p).filter q := by
    rw [List.filter_filter]
    apply List.filter_congr
    intro x hx
    cases hq : q x with
    | false => simp [hq]
    | true => simp [hq, himp x hq]
  rw [h1]
  apply List.length_filter_lt_length_iff_exists.mpr
  exact ⟨a, List.mem_filter.mpr ⟨ha, hpa⟩, by simp [hqa]⟩

/-- Inner page loop of `get_scaling_groups` (lines 67-72): repeatedly fetch
`execKey` pages for tenant `t` starting after group `g`, as long as the
fetched page is full.  Returns the executed queries with their pages.  The
loop is entered only when the previous page was full, hence only with
`0 < bs`; the `0 < bs` conjunct in the guard (true at every call site)
makes the recursion well founded for the vacuous `bs = 0` case as well. -/
def innerT (rows : List SGRec) (bs t g : Nat) : List (Query × List SGRec) :=
  if hb : (execKey rows t g bs).length = bs ∧ 0 < bs then
    (Query.key t g, execKey rows t g bs) ::
      innerT rows bs t ((execKey rows t g bs).getLastD dfltRec).groupId
  else [(Query.key t g, execKey rows t g bs)]
termination_by (rows.filter (pKey t g)).length
decreasing_by
  obtain ⟨h1, h2⟩ := hb
  have hne : execKey rows t g bs ≠ [] := by
    intro hc
    rw [hc] at h1
    simp at h1
    omega
  rw [List.getLastD_eq_getLast?, List.getLast?_eq_getLast _ hne, Option.getD_some]
  have hmem : (execKey rows t g bs).getLast hne ∈ rows.filter (pKey t g) :=
    (List.take_sublist bs _).subset (List.getLast_mem _)
  have hfacts := List.of_mem_filter hmem
  simp only [pKey, Bool.and_eq_true, beq_iff_eq, decide_eq_true_eq] at hfacts
  refine length_filter_strict rows (pKey t g)
    (pKey t ((execKey rows t g bs).getLast hne).groupId)
    ((execKey rows t g bs).getLast hne) ?_ (List.mem_of_mem_filter hmem)
    (List.of_mem_filter hmem) ?_
  · intro x hx
    simp only [pKey, Bool.and_eq_true, beq_iff_eq, decide_eq_true_eq] at hx ⊢
    exact ⟨hx.1, by omega⟩
  · simp [pKey]

/-- Outer loop of `get_scaling_groups` (lines 62-78).  `batch` is the page
fetched last: while it is non-empty, the loop notes the last row's tenant
`t`, drains the rest of tenant `t` with within-tenant pages while the
current page is full, then fetches one cross-tenant page and continues with
it.  Returns the executed queries with their pages (in execution order). -/
def outerT (rows : List SGRec) (bs : Nat) (batch : List SGRec) :
    List (Query × List SGRec) :=
  if batch = [] then []
  else
    (if batch.length = bs then
        innerT rows bs (batch.getLastD dfltRec).tenantId
          (batch.getLastD dfltRec).groupId
      else []) ++
      (Query.token (batch.getLastD dfltRec).tenantId,
          execToken rows (batch.getLastD dfltRec).tenantId bs) ::
        (if hb2 : execToken rows (batch.getLastD dfltRec).tenantId bs = [] then []
         else outerT rows bs (execToken rows (batch.getLastD dfltRec).tenantId bs))
termination_by (rows.filter (pToken (batch.getLastD dfltRec).tenantId)).length
decreasing_by
  set t0 := (batch.getLastD dfltRec).tenantId with ht0
  rw [List.getLastD_eq_getLast?, List.getLast?_eq_getLast _ hb2, Option.getD_some]
  have hmem : (execToken rows t0 bs).getLast hb2 ∈ rows.filter (pToken t0) :=
    (List.take_sublist bs _).subset (List.getLast_mem _)
  have ht := List.of_mem_filter hmem
  simp only [pToken, decide_eq_true_eq] at ht
  refine length_filter_strict rows (pToken t0)
    (pToken (((execToken rows t0 bs).getLast hb2).tenantId))
    ((execToken rows t0 bs).getLast hb2) ?_
    (List.mem_of_mem_filter hmem) (List.of_mem_filter hmem) ?_
  · intro y hy
    simp only [pToken, decide_eq_true_eq] at hy ⊢
    omega
  · simp [pToken]

/-- Trace of a full scan, `get_scaling_groups` before filtering: the
unconditioned first page, then - unless that page was already short - the
cursor-continuation loop. -/
def scanTrace (rows : List SGRec) (bs : Nat) : List (Query × List SGRec) :=
  if (execAll rows bs).length < bs then [(Query.all, execAll rows bs)]
  else (Query.all, execAll rows bs) :: outerT rows bs (execAll rows bs)

/-- Concatenation of all fetched pages: the Python code extends `groups`
with every fetched batch exactly once, in execution order. -/
def pagesOf (tr : List (Query × List SGRec)) : List SGRec :=
  (tr.map Prod.snd).flatten

/-- The list `groups` accumulated by `get_scaling_groups` before the final
`group_filter` is applied. -/
def scan_groups (rows : List SGRec) (bs : Nat) : List SGRec :=
  pagesOf (scanTrace rows bs)

/-- Modelled from the spec: `predicate_all` is referenced by
`get_scaling_groups` but defined outside the provided sources; per the spec
(RecordFilter, section 4.2) it is the conjunction of the given predicates,
evaluated in the given order with short-circuit evaluation (`List.all`
stops at the first `false`). -/
def predicate_all {α : Type} (ps : List (α → Bool)) : α → Bool :=
  fun a => ps.all (fun p => p a)

/-- The check `g['desired'] is not None` (line 46). -/
def has_desired (g : SGRec) : Bool := g.desired.isSome

/-- The check `g['created_at'] is not None` (line 47). -/
def has_created_at (g : SGRec) : Bool := g.created_at.isSome

/-- The filter applied to the scanned rows (line 49):
`filter(predicate_all(has_desired, has_created_at, group_pred))`. -/
def group_filter (group_pred : SGRec → Bool) (groups : List SGRec) : List SGRec :=
  groups.filter (predicate_all [has_desired, has_created_at, group_pred])

/-- Return value of `get_scaling_groups`: the accumulated scan run through
`group_filter` (both return paths, lines 58 and 79, apply the filter). -/
def get_scaling_groups (rows : List SGRec) (bs : Nat) (group_pred : SGRec → Bool) :
    List SGRec :=
  group_filter group_pred (scan_groups rows bs)

/-- A live server as handed to `get_tenant_metrics` / `check_tenant_config`:
the fields the module reads are `status`, `flavor.id` and `image.id` (the
two nested ids are modelled as flat fields). -/
structure ServerRec where
  id : Nat
  status : String
  flavorId : Nat
  imageId : Nat
deriving DecidableEq, Repr

/-- The namedtuple `GroupMetrics(tenant_id, group_id, desired, actual,
pending)` (line 134).  `desired` is copied verbatim from the row, so it
keeps the row's nullable type; `actual` and `pending` are counts. -/
structure GroupMetrics where
  tenant_id : Nat
  group_id : Nat
  desired : Option Int
  actual : Nat
  pending : Nat
deriving DecidableEq, Repr

/-- Python dict of servers grouped by scaling-group id, modelled as an
association list with the dict's unique keys; `group_id not in servers`
is `lookup = none`. -/
abbrev ServersMap := List (Nat × List ServerRec)

/-- Lines 149-158: one `GroupMetrics` per scaling-group row, in order.  A
group absent from `servers` yields `(.., desired, 0, 0)`; otherwise
`actual` counts the ACTIVE servers and `pending` is the rest. -/
def get_tenant_metrics (tenant_id : Nat) (scaling_groups : List SGRec)
    (servers : ServersMap) : List GroupMetrics :=
  scaling_groups.map (fun group =>
    match servers.lookup group.groupId with
    | none => ⟨tenant_id, group.groupId, group.desired, 0, 0⟩
    | some ss =>
        let active := (ss.filter (fun s => s.status == "ACTIVE")).length
        ⟨tenant_id, group.groupId, group.desired, active, ss.length - active⟩)

/-- The (flavor id, image id) pair extracted from a server by the `props`
paths of `check_tenant_config` (line 101). -/
def serverConfig (s : ServerRec) : Nat × Nat := (s.flavorId, s.imageId)

/-- Body of the `check_tenant_config` loop (lines 103-109) for one group id:
skip a group with no servers; otherwise compute the set `uniques` of
distinct (flavor id, image id) pairs of the group's servers and report the
group exactly when `len(uniques) > 1`.  The printed report line is modelled
as the returned triple. -/
def detectDrift (tenant_id gid : Nat) (grouped_servers : ServersMap) :
    Option (Nat × Nat × Finset (Nat × Nat)) :=
  match grouped_servers.lookup gid with
  | none => none
  | some ss =>
      let uniques := (ss.map serverConfig).toFinset
      if 1 < uniques.card then some (tenant_id, gid, uniques)
      else none

/-- Lines 96-109: run the drift check over every group of the tenant,
collecting the report lines in group order. -/
def check_tenant_config (tenant_id : Nat) (groups : List SGRec)
    (grouped_servers : ServersMap) : List (Nat × Nat × Finset (Nat × Nat)) :=
  groups.filterMap (fun group => detectDrift tenant_id group.groupId grouped_servers)

/-- One step of grouping rows by tenant: append the row to its tenant's
bucket, or open a new bucket at the end. -/
def insertGroup (m : List (Nat × List SGRec)) (g : SGRec) :
    List (Nat × List SGRec) :=
  match m with
  | [] => [(g.tenantId, [g])]
  | (t, gs) :: rest =>
      if t = g.tenantId then (t, gs ++ [g]) :: rest
      else (t, gs) :: insertGroup rest g

/-- The `groupby(lambda g: g['tenantId'], cass_groups)` of line 178: buckets
keyed by tenant, each bucket keeping row order; buckets listed in order of
first appearance (the dict's iteration order is not otherwise relied on). -/
def groupby_tenant (cass_groups : List SGRec) : List (Nat × List SGRec) :=
  cass_groups.foldl insertGroup []

/-- Sequential composition of the per-tenant enrichment / metrics chain
(lines 181-190): for each tenant bucket, call the enrichment collaborator
and turn its servers into metrics; `gatherResults` delivers the combined
list only when every per-tenant Deferred succeeded, and fails as a whole
otherwise, which an `Except`-valued traversal captures. -/
def gatherTenantMetrics {ε : Type} (enrich : Nat → Except ε ServersMap) :
    List (Nat × List SGRec) → Except ε (List GroupMetrics)
  | [] => Except.ok []
  | (t, gs) :: rest =>
      match enrich t with
      | Except.error e => Except.error e
      | Except.ok servers =>
          match gatherTenantMetrics enrich rest with
          | Except.error e => Except.error e
          | Except.ok ms => Except.ok (get_tenant_metrics t gs servers ++ ms)

/-- Lines 161-190: group the rows by tenant, enrich every tenant (the
external `get_scaling_group_servers` is abstracted as the fallible
`enrich` argument) and collect all `GroupMetrics`. -/
def get_all_metrics {ε : Type} (cass_groups : List SGRec)
    (enrich : Nat → Except ε ServersMap) : Except ε (List GroupMetrics) :=
  gatherTenantMetrics enrich (groupby_tenant cass_groups)

/-- Sort key of line 232, `abs(g.desired - g.actual)`: the divergence of a
group.  Metrics coming out of the pipeline always carry a present
`desired` (the scan filter dropped null ones); the `getD 0` default only
totalises the model. -/
def divergence (g : GroupMetrics) : Nat :=
  (g.desired.getD 0 - (g.actual : Int)).natAbs

/-- Insert into a descending-by-divergence sorted list, after every element
with strictly larger divergence and before ties (ties keep input order,
as the element being inserted precedes the list's elements in the input). -/
def insertDesc (x : GroupMetrics) : List GroupMetrics → List GroupMetrics
  | [] => [x]
  | y :: ys =>
      if divergence x < divergence y then y :: insertDesc x ys
      else x :: y :: ys

/-- The `group_metrics.sort(key=lambda g: abs(g.desired - g.actual),
reverse=True)` of line 232: Python's `list.sort` is the stable sort, whose
result this insertion sort computes. -/
def sort_by_divergence : List GroupMetrics → List GroupMetrics
  | [] => []
  | x :: xs => insertDesc x (sort_by_divergence xs)

/-- Does row `r` determine the cursor bound into query `q`?  The
within-tenant continuation binds `r`'s tenant and group; the cross-tenant
continuation binds `r`'s tenant. -/
def derives (r : SGRec) : Query → Bool
  | Query.all => false
  | Query.key t g => r.tenantId == t && r.groupId == g
  | Query.token t => r.tenantId == t

/-- Checks a trace of continuation queries against the record `r` that the
most recent non-empty page ended with: each query's cursor must be derived
from `r`, and a non-empty page replaces `r` with its own last element. -/
def okCont : SGRec → List (Query × List SGRec) → Bool
  | _, [] => true
  | r, (q, p) :: rest => derives r q && okCont (p.getLastD r) rest

/-- The record the most recent non-empty page of `tr` ends with, starting
from `r`. -/
def finalRec (r : SGRec) (tr : List (Query × List SGRec)) : SGRec :=
  tr.foldl (fun acc qp => qp.2.getLastD acc) r

/-- The whole-trace form of the cursor property: the trace opens with the
unconditioned query, and every following query's cursor is derived from
the last element of the most recent non-empty page before it. -/
def traceOk : List (Query × List SGRec) → Bool
  | (Query.all, p) :: rest => okCont (p.getLastD dfltRec) rest
  | _ => false

/-- The literal reading of the claim: every continuation query's cursor is
derived from the last element of the page fetched immediately before it
(an empty immediately-preceding page therefore fails the check). -/
def okContStrict : List (Query × List SGRec) → Bool
  | (q, p) :: (q', p') :: rest =>
      (match p.getLast? with
       | some r => derives r q'
       | none => false) && okContStrict ((q', p') :: rest)
  | _ => true

theorem keyLt_irrefl (a : SGRec) : ¬ keyLt a a := by
  unfold keyLt
  omega

theorem keyLt_asymm {a b : SGRec} (h : keyLt a b) : ¬ keyLt b a := by
  unfold keyLt at *
  omega

/-- Every member of a strictly sorted non-empty list is its last element or
comes strictly before it. -/
theorem mem_getLast_keyLt {l : List SGRec} (hp : l.Pairwise keyLt) (h : l ≠ [])
    {a : SGRec} (ha : a ∈ l) : a = l.getLast h ∨ keyLt a (l.getLast h) := by
  have hd := List.dropLast_append_getLast h
  rw [← hd] at hp ha
  rcases List.mem_append.mp ha with h1 | h1
  · right
    exact (List.pairwise_append.mp hp).2.2 a h1 _ (by simp)
  · left
    simpa using h1

/-- In a strictly sorted list, what comes after the first `n` elements is
exactly what sorts strictly after the last of those `n` elements. -/
theorem drop_eq_filter_getLast {l : List SGRec} (hp : l.Pairwise keyLt) (n : Nat)
    (h : l.take n ≠ []) :
    l.drop n = l.filter (fun r => decide (keyLt ((l.take n).getLast h) r)) := by
  set x := (l.take n).getLast h with hx
  have hsplit := List.take_append_drop n l
  conv_rhs => rw [← hsplit, List.filter_append]
  have h1 : (l.take n).filter (fun r => decide (keyLt x r)) = [] := by
    apply List.filter_eq_nil_iff.mpr
    intro a ha
    have hTake : (l.take n).Pairwise keyLt :=
      List.Pairwise.sublist (List.take_sublist n l) hp
    simp only [decide_eq_true_eq]
    rcases mem_getLast_keyLt hTake h ha with h2 | h2
    · rw [h2, ← hx]
      exact keyLt_irrefl _
    · rw [← hx] at h2
      exact keyLt_asymm h2
  have h2 : (l.drop n).filter (fun r => decide (keyLt x r)) = l.drop n := by
    apply List.filter_eq_self.mpr
    intro a ha
    have hall := (List.pairwise_append.mp (by rw [hsplit]; exact hp)).2.2
    simp only [decide_eq_true_eq]
    exact hall _ (hx ▸ List.getLast_mem h) a ha
  rw [h1, h2, List.nil_append]

/-- Splitting a sorted filter along two predicates, all of whose `p`-rows
sort strictly before all of its `q`-rows. -/
theorem filter_or_split {l : List SGRec} (hp : l.Pairwise keyLt)
    (p q : SGRec → Bool) (horder : ∀ a b, p a = true → q b = true → keyLt a b) :
    l.filter (fun a => p a || q a) = l.filter p ++ l.filter q := by
  induction l with
  | nil => simp
  | cons x xs ih =>
    have hpx := List.pairwise_cons.mp hp
    cases hpq : p x with
    | true =>
      cases hq : q x with
      | true => exact absurd (horder x x hpq hq) (keyLt_irrefl x)
      | false =>
        simp only [List.filter_cons, hpq, hq, Bool.true_or]
        rw [ih hpx.2]
        simp
    | false =>
      cases hq : q x with
      | false =>
        simp only [List.filter_cons, hpq, hq, Bool.false_or]
        exact ih hpx.2
      | true =>
        have hpxs : xs.filter p = [] := by
          apply List.filter_eq_nil_iff.mpr
          intro a ha hpa
          exact keyLt_asymm (horder a x hpa hq) (hpx.1 a ha)
        simp only [List.filter_cons, hpq, hq, Bool.false_or]
        rw [ih hpx.2, hpxs]
        simp

theorem pagesOf_nil : pagesOf [] = [] := rfl

theorem pagesOf_cons (q : Query) (p : List SGRec) (tr : List (Query × List SGRec)) :
    pagesOf ((q, p) :: tr) = p ++ pagesOf tr := rfl

theorem pagesOf_append (t1 t2 : List (Query × List SGRec)) :
    pagesOf (t1 ++ t2) = pagesOf t1 ++ pagesOf t2 := by
  unfold pagesOf
  rw [List.map_append, List.flatten_append]

/-- The inner page loop drains exactly the remaining rows of tenant `t`
after group `g`, in store order, wherever the page boundaries fall. -/
theorem innerT_pages (rows : List SGRec) (bs : Nat) (hbs : 1 ≤ bs)
    (hp : rows.Pairwise keyLt) (t : Nat) :
    ∀ (n : Nat) (g : Nat), (rows.filter (pKey t g)).length ≤ n →
      pagesOf (innerT rows bs t g) = rows.filter (pKey t g) := by
  intro n
  induction n with
  | zero =>
    intro g hg
    have hnil : rows.filter (pKey t g) = [] :=
      List.length_eq_zero.mp (Nat.le_zero.mp hg)
    have hb : execKey rows t g bs = [] := by
      simp [execKey, hnil]
    have hneg : ¬((execKey rows t g bs).length = bs ∧ 0 < bs) := by
      rw [hb]
      simp
      omega
    rw [innerT, dif_neg hneg, pagesOf_cons, pagesOf_nil, List.append_nil, hb, hnil]
  | succ n ih =>
    intro g hg
    by_cases hfull : (execKey rows t g bs).length = bs ∧ 0 < bs
    · have hne : execKey rows t g bs ≠ [] := by
        intro hc
        rw [hc] at hfull
        simp at hfull
        omega
      have hmem : (execKey rows t g bs).getLast hne ∈ rows.filter (pKey t g) :=
        (List.take_sublist bs _).subset (List.getLast_mem _)
      have hxf := List.of_mem_filter hmem
      simp only [pKey, Bool.and_eq_true, beq_iff_eq, decide_eq_true_eq] at hxf
      have hgetD : (execKey rows t g bs).getLastD dfltRec
          = (execKey rows t g bs).getLast hne := by
        rw [List.getLastD_eq_getLast?, List.getLast?_eq_getLast _ hne, Option.getD_some]
      have hLp : (rows.filter (pKey t g)).Pairwise keyLt :=
        List.Pairwise.sublist (List.filter_sublist rows) hp
      have htake_ne : (rows.filter (pKey t g)).take bs ≠ [] := hne
      have hdrop : (rows.filter (pKey t g)).drop bs
          = (rows.filter (pKey t g)).filter
              (fun r => decide (keyLt ((execKey rows t g bs).getLast hne) r)) :=
        drop_eq_filter_getLast hLp bs htake_ne
      have hnext : rows.filter
            (pKey t (((execKey rows t g bs).getLastD dfltRec).groupId))
          = (rows.filter (pKey t g)).drop bs := by
        rw [hdrop, List.filter_filter]
        apply List.filter_congr
        intro r hr
        rw [hgetD]
        apply Bool.eq_iff_iff.mpr
        simp only [pKey, keyLt, Bool.and_eq_true, beq_iff_eq, decide_eq_true_eq]
        omega
      have hminb : min bs (rows.filter (pKey t g)).length = bs := by
        have := hfull.1
        simpa [execKey, List.length_take] using this
      have hle : (rows.filter
          (pKey t (((execKey rows t g bs).getLastD dfltRec).groupId))).length ≤ n := by
        rw [hnext, List.length_drop]
        omega
      rw [innerT, dif_pos hfull, pagesOf_cons,
        ih (((execKey rows t g bs).getLastD dfltRec).groupId) hle, hnext]
      exact List.take_append_drop bs _
    · have hlt : (rows.filter (pKey t g)).length < bs := by
        have h1 : (execKey rows t g bs).length
            = min bs (rows.filter (pKey t g)).length := by
          simp [execKey, List.length_take]
        have h2 : (execKey rows t g bs).length ≠ bs := by
          intro hc
          exact hfull ⟨hc, by omega⟩
        omega
      rw [innerT, dif_neg hfull, pagesOf_cons, pagesOf_nil, List.append_nil]
      exact List.take_of_length_le (by omega)

/-- A sorted store's rows strictly after row `x` are: the rest of `x`'s
tenant (`groupId` past `x`'s), then the rows of the later tenants. -/
theorem filter_keyLt_split (rows : List SGRec) (hp : rows.Pairwise keyLt)
    (x : SGRec) :
    rows.filter (fun r => decide (keyLt x r))
      = rows.filter (pKey x.tenantId x.groupId)
        ++ rows.filter (pToken x.tenantId) := by
  have horder : ∀ a b, pKey x.tenantId x.groupId a = true →
      pToken x.tenantId b = true → keyLt a b := by
    intro a b ha hb
    simp only [pKey, pToken, Bool.and_eq_true, beq_iff_eq,
      decide_eq_true_eq] at ha hb
    unfold keyLt
    omega
  rw [← filter_or_split hp (pKey x.tenantId x.groupId) (pToken x.tenantId) horder]
  apply List.filter_congr
  intro r hr
  apply Bool.eq_iff_iff.mpr
  simp only [pKey, pToken, keyLt, Bool.or_eq_true, Bool.and_eq_true,
    beq_iff_eq, decide_eq_true_eq]
  omega

/-- The outer loop collects, from a non-empty previous page `batch`, exactly
the rows sorting strictly after `batch`'s last row (when `batch` was full),
or the rows of the tenants after `batch`'s last tenant (when `batch` was
short - which only happens when that last tenant was already drained). -/
theorem outerT_pages (rows : List SGRec) (bs : Nat) (hbs : 1 ≤ bs)
    (hp : rows.Pairwise keyLt) :
    ∀ (n : Nat) (batch : List SGRec), batch ≠ [] →
      (rows.filter (pToken (batch.getLastD dfltRec).tenantId)).length ≤ n →
      pagesOf (outerT rows bs batch) =
        if batch.length = bs then
          rows.filter (fun r => decide (keyLt (batch.getLastD dfltRec) r))
        else rows.filter (pToken (batch.getLastD dfltRec).tenantId) := by
  intro n
  induction n using Nat.strong_induction_on with
  | _ n IH =>
    intro batch hne hn
    rw [outerT, if_neg hne, pagesOf_append, pagesOf_cons]
    set x := batch.getLastD dfltRec with hxdef
    have hstep : execToken rows x.tenantId bs ++
        pagesOf (if hb2 : execToken rows x.tenantId bs = [] then []
                 else outerT rows bs (execToken rows x.tenantId bs))
        = rows.filter (pToken x.tenantId) := by
      by_cases hb2 : execToken rows x.tenantId bs = []
      · rw [dif_pos hb2, pagesOf_nil, hb2, List.nil_append]
        rcases List.take_eq_nil_iff.mp hb2 with h | h
        · omega
        · rw [h]
      · rw [dif_neg hb2]
        have hb2mem : (execToken rows x.tenantId bs).getLast hb2 ∈
            rows.filter (pToken x.tenantId) :=
          (List.take_sublist bs _).subset (List.getLast_mem _)
        have ht2 := List.of_mem_filter hb2mem
        simp only [pToken, decide_eq_true_eq] at ht2
        have hgetD2 : (execToken rows x.tenantId bs).getLastD dfltRec
            = (execToken rows x.tenantId bs).getLast hb2 := by
          rw [List.getLastD_eq_getLast?, List.getLast?_eq_getLast _ hb2,
            Option.getD_some]
        have hdec : (rows.filter
              (pToken ((execToken rows x.tenantId bs).getLastD dfltRec).tenantId)).length
            < (rows.filter (pToken x.tenantId)).length := by
          rw [hgetD2]
          refine length_filter_strict rows (pToken x.tenantId)
            (pToken ((execToken rows x.tenantId bs).getLast hb2).tenantId)
            ((execToken rows x.tenantId bs).getLast hb2) ?_
            (List.mem_of_mem_filter hb2mem) (List.of_mem_filter hb2mem) ?_
          · intro y hy
            simp only [pToken, decide_eq_true_eq] at hy ⊢
            omega
          · simp [pToken]
        have hIH := IH (rows.filter
            (pToken ((execToken rows x.tenantId bs).getLastD dfltRec).tenantId)).length
          (by omega) (execToken rows x.tenantId bs) hb2 (le_refl _)
        rw [hIH]
        have hBp : (rows.filter (pToken x.tenantId)).Pairwise keyLt :=
          List.Pairwise.sublist (List.filter_sublist rows) hp
        by_cases hfull2 : (execToken rows x.tenantId bs).length = bs
        · rw [if_pos hfull2, hgetD2]
          have hdropB : (rows.filter (pToken x.tenantId)).drop bs
              = (rows.filter (pToken x.tenantId)).filter
                  (fun r => decide (keyLt ((execToken rows x.tenantId bs).getLast hb2) r)) :=
            drop_eq_filter_getLast hBp bs hb2
          have hglobal : rows.filter
                (fun r => decide (keyLt ((execToken rows x.tenantId bs).getLast hb2) r))
              = (rows.filter (pToken x.tenantId)).filter
                  (fun r => decide (keyLt ((execToken rows x.tenantId bs).getLast hb2) r)) := by
            rw [List.filter_filter]
            apply List.filter_congr
            intro r hr
            apply Bool.eq_iff_iff.mpr
            simp only [pToken, keyLt, Bool.and_eq_true, decide_eq_true_eq]
            omega
          rw [hglobal, ← hdropB]
          exact List.take_append_drop bs _
        · rw [if_neg hfull2]
          have hb2B : execToken rows x.tenantId bs
              = rows.filter (pToken x.tenantId) := by
            have h1 : (execToken rows x.tenantId bs).length
                = min bs (rows.filter (pToken x.tenantId)).length := by
              simp [execToken, List.length_take]
            exact List.take_of_length_le (by omega)
          have hnil2 : rows.filter
              (pToken ((execToken rows x.tenantId bs).getLastD dfltRec).tenantId) = [] := by
            apply List.filter_eq_nil_iff.mpr
            intro r hr hcontra
            rw [hgetD2] at hcontra
            simp only [pToken, decide_eq_true_eq] at hcontra
            have hrB : r ∈ execToken rows x.tenantId bs := by
              rw [hb2B]
              apply List.mem_filter.mpr
              refine ⟨hr, ?_⟩
              simp only [pToken, decide_eq_true_eq]
              omega
            have hb2p : (execToken rows x.tenantId bs).Pairwise keyLt := by
              rw [hb2B]
              exact hBp
            rcases mem_getLast_keyLt hb2p hb2 hrB with h3 | h3
            · rw [h3] at hcontra
              omega
            · unfold keyLt at h3
              omega
          rw [hnil2, List.append_nil, hb2B]
    rw [hstep]
    by_cases hfull : batch.length = bs
    · rw [if_pos hfull, if_pos hfull]
      rw [innerT_pages rows bs hbs hp x.tenantId
        (rows.filter (pKey x.tenantId x.groupId)).length x.groupId (le_refl _)]
      exact (filter_keyLt_split rows hp x).symm
    · rw [if_neg hfull, if_neg hfull, pagesOf_nil, List.nil_append]

/-- The full scan visits a sorted store's rows exactly, in store order, for
any page size of at least 1. -/
theorem scan_groups_exact (rows : List SGRec) (bs : Nat) (hbs : 1 ≤ bs)
    (hp : rows.Pairwise keyLt) : scan_groups rows bs = rows := by
  unfold scan_groups scanTrace
  by_cases hshort : (execAll rows bs).length < bs
  · rw [if_pos hshort, pagesOf_cons, pagesOf_nil, List.append_nil]
    have h1 : (execAll rows bs).length = min bs rows.length := by
      simp [execAll, List.length_take]
    exact List.take_of_length_le (by omega)
  · rw [if_neg hshort, pagesOf_cons]
    have h1 : (execAll rows bs).length = min bs rows.length := by
      simp [execAll, List.length_take]
    have hfull : (execAll rows bs).length = bs := by omega
    have hne : execAll rows bs ≠ [] := by
      intro hc
      rw [hc] at hfull
      simp at hfull
      omega
    have hgetD : (execAll rows bs).getLastD dfltRec
        = (execAll rows bs).getLast hne := by
      rw [List.getLastD_eq_getLast?, List.getLast?_eq_getLast _ hne, Option.getD_some]
    rw [outerT_pages rows bs hbs hp
      (rows.filter (pToken ((execAll rows bs).getLastD dfltRec).tenantId)).length
      (execAll rows bs) hne (le_refl _), if_pos hfull, hgetD]
    have hdrop' : rows.drop bs = rows.filter
        (fun r => decide (keyLt ((execAll rows bs).getLast hne) r)) :=
      drop_eq_filter_getLast hp bs hne
    rw [← hdrop']
    exact List.take_append_drop bs rows

/-- In a strictly sorted store the (tenantId, groupId) pairs are pairwise
distinct. -/
theorem keys_nodup (rows : List SGRec) (hp : rows.Pairwise keyLt) :
    (rows.map (fun r => (r.tenantId, r.groupId))).Nodup := by
  apply List.Pairwise.map (fun r => (r.tenantId, r.groupId))
    (fun a b hab => ?_) hp
  intro hEq
  rw [Prod.mk.injEq] at hEq
  unfold keyLt at hab
  omega

theorem okCont_cons (r : SGRec) (q : Query) (p : List SGRec)
    (tr : List (Query × List SGRec)) :
    okCont r ((q, p) :: tr) = (derives r q && okCont (p.getLastD r) tr) := rfl

theorem finalRec_cons (r : SGRec) (q : Query) (p : List SGRec)
    (tr : List (Query × List SGRec)) :
    finalRec r ((q, p) :: tr) = finalRec (p.getLastD r) tr := rfl

theorem okCont_append (r : SGRec) (t1 t2 : List (Query × List SGRec)) :
    okCont r (t1 ++ t2) = (okCont r t1 && okCont (finalRec r t1) t2) := by
  induction t1 generalizing r with
  | nil => simp [okCont, finalRec]
  | cons hd tl ih =>
    obtain ⟨q, p⟩ := hd
    rw [List.cons_append, okCont_cons, okCont_cons, finalRec_cons, ih,
      Bool.and_assoc]

/-- Continuing a within-tenant page walk past a non-empty page strictly
shrinks the rows left for that tenant. -/
theorem filter_pKey_next_lt (rows : List SGRec) (bs t g : Nat)
    (hne : execKey rows t g bs ≠ []) :
    (rows.filter (pKey t ((execKey rows t g bs).getLastD dfltRec).groupId)).length
      < (rows.filter (pKey t g)).length := by
  have hgetD : (execKey rows t g bs).getLastD dfltRec
      = (execKey rows t g bs).getLast hne := by
    rw [List.getLastD_eq_getLast?, List.getLast?_eq_getLast _ hne, Option.getD_some]
  rw [hgetD]
  have hmem : (execKey rows t g bs).getLast hne ∈ rows.filter (pKey t g) :=
    (List.take_sublist bs _).subset (List.getLast_mem _)
  have hxf := List.of_mem_filter hmem
  simp only [pKey, Bool.and_eq_true, beq_iff_eq, decide_eq_true_eq] at hxf
  refine length_filter_strict rows (pKey t g)
    (pKey t ((execKey rows t g bs).getLast hne).groupId)
    ((execKey rows t g bs).getLast hne) ?_ (List.mem_of_mem_filter hmem)
    (List.of_mem_filter hmem) ?_
  · intro y hy
    simp only [pKey, Bool.and_eq_true, beq_iff_eq, decide_eq_true_eq] at hy ⊢
    exact ⟨hy.1, by omega⟩
  · simp [pKey]

/-- Jumping past a non-empty cross-tenant page strictly shrinks the rows of
later tenants. -/
theorem filter_pToken_next_lt (rows : List SGRec) (bs t : Nat)
    (hne : execToken rows t bs ≠ []) :
    (rows.filter (pToken ((execToken rows t bs).getLastD dfltRec).tenantId)).length
      < (rows.filter (pToken t)).length := by
  have hgetD : (execToken rows t bs).getLastD dfltRec
      = (execToken rows t bs).getLast hne := by
    rw [List.getLastD_eq_getLast?, List.getLast?_eq_getLast _ hne, Option.getD_some]
  rw [hgetD]
  have hmem : (execToken rows t bs).getLast hne ∈ rows.filter (pToken t) :=
    (List.take_sublist bs _).subset (List.getLast_mem _)
  have ht := List.of_mem_filter hmem
  simp only [pToken, decide_eq_true_eq] at ht
  refine length_filter_strict rows (pToken t)
    (pToken ((execToken rows t bs).getLast hne).tenantId)
    ((execToken rows t bs).getLast hne) ?_ (List.mem_of_mem_filter hmem)
    (List.of_mem_filter hmem) ?_
  · intro y hy
    simp only [pToken, decide_eq_true_eq] at hy ⊢
    omega
  · simp [pToken]

/-- Along the inner loop's trace every cursor is derived from the last row
of the most recent non-empty page, and the last row of the most recent
non-empty page at the end still belongs to tenant `t`.  This needs no
sortedness: each within-tenant page consists of rows of tenant `t`. -/
theorem innerT_okCont (rows : List SGRec) (bs : Nat) :
    ∀ (n t g : Nat) (r0 : SGRec), (rows.filter (pKey t g)).length ≤ n →
      r0.tenantId = t → r0.groupId = g →
      okCont r0 (innerT rows bs t g) = true ∧
        (finalRec r0 (innerT rows bs t g)).tenantId = t := by
  intro n
  induction n with
  | zero =>
    intro t g r0 hlen ht hg
    have hnil : rows.filter (pKey t g) = [] :=
      List.length_eq_zero.mp (Nat.le_zero.mp hlen)
    have hb : execKey rows t g bs = [] := by
      simp [execKey, hnil]
    have hneg : ¬((execKey rows t g bs).length = bs ∧ 0 < bs) := by
      rw [hb]
      simp
      omega
    rw [innerT, dif_neg hneg]
    refine ⟨by simp [okCont, derives, ht, hg], ?_⟩
    rw [finalRec_cons, hb]
    simpa [finalRec] using ht
  | succ n ih =>
    intro t g r0 hlen ht hg
    by_cases hfull : (execKey rows t g bs).length = bs ∧ 0 < bs
    · have hne : execKey rows t g bs ≠ [] := by
        intro hc
        rw [hc] at hfull
        simp at hfull
        omega
      have hmem : (execKey rows t g bs).getLast hne ∈ rows.filter (pKey t g) :=
        (List.take_sublist bs _).subset (List.getLast_mem _)
      have hxf := List.of_mem_filter hmem
      simp only [pKey, Bool.and_eq_true, beq_iff_eq, decide_eq_true_eq] at hxf
      have hgetD : (execKey rows t g bs).getLastD dfltRec
          = (execKey rows t g bs).getLast hne := by
        rw [List.getLastD_eq_getLast?, List.getLast?_eq_getLast _ hne, Option.getD_some]
      have hr1 : (execKey rows t g bs).getLastD r0
          = (execKey rows t g bs).getLast hne := by
        rw [List.getLastD_eq_getLast?, List.getLast?_eq_getLast _ hne, Option.getD_some]
      have hdec := filter_pKey_next_lt rows bs t g hne
      obtain ⟨ihA, ihB⟩ := ih t (((execKey rows t g bs).getLastD dfltRec).groupId)
        ((execKey rows t g bs).getLastD r0) (by omega)
        (by rw [hr1]; exact hxf.1) (by rw [hr1, hgetD])
      rw [innerT, dif_pos hfull]
      constructor
      · rw [okCont_cons, ihA]
        simp [derives, ht, hg]
      · rw [finalRec_cons]
        exact ihB
    · rw [innerT, dif_neg hfull]
      refine ⟨by simp [okCont, derives, ht, hg], ?_⟩
      rw [finalRec_cons]
      by_cases hbe : execKey rows t g bs = []
      · rw [hbe]
        simpa [finalRec] using ht
      · have hr1 : (execKey rows t g bs).getLastD r0
            = (execKey rows t g bs).getLast hbe := by
          rw [List.getLastD_eq_getLast?, List.getLast?_eq_getLast _ hbe, Option.getD_some]
        have hmem : (execKey rows t g bs).getLast hbe ∈ rows.filter (pKey t g) :=
          (List.take_sublist bs _).subset (List.getLast_mem _)
        have hxf := List.of_mem_filter hmem
        simp only [pKey, Bool.and_eq_true, beq_iff_eq, decide_eq_true_eq] at hxf
        show ((execKey rows t g bs).getLastD r0).tenantId = t
        rw [hr1]
        exact hxf.1

/-- Along the outer loop's trace, every cursor is derived from the last row
of the most recent non-empty page.  Needs no sortedness. -/
theorem outerT_okCont (rows : List SGRec) (bs : Nat) :
    ∀ (n : Nat) (batch : List SGRec), batch ≠ [] →
      (rows.filter (pToken (batch.getLastD dfltRec).tenantId)).length ≤ n →
      okCont (batch.getLastD dfltRec) (outerT rows bs batch) = true := by
  intro n
  induction n using Nat.strong_induction_on with
  | _ n IH =>
    intro batch hne hn
    rw [outerT, if_neg hne, okCont_append]
    set x := batch.getLastD dfltRec with hxdef
    have hinner : okCont x
          (if batch.length = bs then innerT rows bs x.tenantId x.groupId else [])
          = true ∧
        (finalRec x
          (if batch.length = bs then innerT rows bs x.tenantId x.groupId else [])).tenantId
          = x.tenantId := by
      by_cases hfull : batch.length = bs
      · rw [if_pos hfull]
        exact innerT_okCont rows bs
          (rows.filter (pKey x.tenantId x.groupId)).length x.tenantId x.groupId x
          (le_refl _) rfl rfl
      · rw [if_neg hfull]
        exact ⟨rfl, rfl⟩
    rw [hinner.1, okCont_cons, Bool.true_and]
    have hd : derives
        (finalRec x
          (if batch.length = bs then innerT rows bs x.tenantId x.groupId else []))
        (Query.token x.tenantId) = true := by
      simp [derives, hinner.2]
    rw [hd, Bool.true_and]
    by_cases hb2 : execToken rows x.tenantId bs = []
    · rw [dif_pos hb2]
      rfl
    · rw [dif_neg hb2]
      have hrD : ∀ (r : SGRec), (execToken rows x.tenantId bs).getLastD r
          = (execToken rows x.tenantId bs).getLast hb2 := by
        intro r
        rw [List.getLastD_eq_getLast?, List.getLast?_eq_getLast _ hb2, Option.getD_some]
      rw [hrD]
      have hdec := filter_pToken_next_lt rows bs x.tenantId hb2
      have := IH (rows.filter
          (pToken ((execToken rows x.tenantId bs).getLastD dfltRec).tenantId)).length
        (by omega) (execToken rows x.tenantId bs) hb2 (le_refl _)
      rwa [hrD] at this

/-- Every continuation query of a scan derives its cursor from the last row
of the most recent non-empty preceding page (for any store contents). -/
theorem scanTrace_ok (rows : List SGRec) (bs : Nat) (hbs : 1 ≤ bs) :
    traceOk (scanTrace rows bs) = true := by
  unfold scanTrace
  by_cases hshort : (execAll rows bs).length < bs
  · rw [if_pos hshort]
    rfl
  · rw [if_neg hshort]
    show okCont ((execAll rows bs).getLastD dfltRec)
      (outerT rows bs (execAll rows bs)) = true
    have hne : execAll rows bs ≠ [] := by
      intro hc
      rw [hc] at hshort
      simp at hshort
      omega
    exact outerT_okCont rows bs
      (rows.filter (pToken ((execAll rows bs).getLastD dfltRec).tenantId)).length
      (execAll rows bs) hne (le_refl _)

theorem insertDesc_perm (x : GroupMetrics) (l : List GroupMetrics) :
    (insertDesc x l).Perm (x :: l) := by
  induction l with
  | nil => exact List.Perm.refl _
  | cons y ys ih =>
    show (if divergence x < divergence y then y :: insertDesc x ys
          else x :: y :: ys).Perm (x :: y :: ys)
    by_cases h : divergence x < divergence y
    · rw [if_pos h]
      exact (ih.cons y).trans (List.Perm.swap x y ys)
    · rw [if_neg h]

theorem insertDesc_sorted (x : GroupMetrics) (l : List GroupMetrics)
    (hl : l.Pairwise (fun a b => divergence b ≤ divergence a)) :
    (insertDesc x l).Pairwise (fun a b => divergence b ≤ divergence a) := by
  induction l with
  | nil => simp [insertDesc]
  | cons y ys ih =>
    obtain ⟨hy, hys⟩ := List.pairwise_cons.mp hl
    show (if divergence x < divergence y then y :: insertDesc x ys
          else x :: y :: ys).Pairwise _
    by_cases h : divergence x < divergence y
    · rw [if_pos h]
      apply List.pairwise_cons.mpr
      refine ⟨?_, ih hys⟩
      intro z hz
      rcases List.mem_cons.mp ((insertDesc_perm x ys).mem_iff.mp hz) with rfl | hzys
      · omega
      · exact hy z hzys
    · rw [if_neg h]
      apply List.pairwise_cons.mpr
      refine ⟨?_, hl⟩
      intro z hz
      rcases List.mem_cons.mp hz with rfl | hzys
      · omega
      · have := hy z hzys
        omega

theorem insertDesc_filter_key (x : GroupMetrics) (l : List GroupMetrics) (c : Nat) :
    (insertDesc x l).filter (fun g => divergence g == c)
      = (x :: l).filter (fun g => divergence g == c) := by
  induction l with
  | nil => rfl
  | cons y ys ih =>
    show (if divergence x < divergence y then y :: insertDesc x ys
          else x :: y :: ys).filter _ = _
    by_cases h : divergence x < divergence y
    · rw [if_pos h]
      by_cases hxc : divergence x = c
      · have hyc : ¬(divergence y = c) := by omega
        simp [List.filter_cons, hxc, hyc, ih]
      · simp [List.filter_cons, hxc, ih]
    · rw [if_neg h]

theorem sort_by_divergence_perm (l : List GroupMetrics) :
    (sort_by_divergence l).Perm l := by
  induction l with
  | nil => exact List.Perm.refl _
  | cons x xs ih =>
    show (insertDesc x (sort_by_divergence xs)).Perm (x :: xs)
    exact (insertDesc_perm x _).trans (ih.cons x)

theorem sort_by_divergence_sorted (l : List GroupMetrics) :
    (sort_by_divergence l).Pairwise (fun a b => divergence b ≤ divergence a) := by
  induction l with
  | nil => exact List.Pairwise.nil
  | cons x xs ih => exact insertDesc_sorted x _ ih

theorem sort_by_divergence_stable (l : List GroupMetrics) (c : Nat) :
    (sort_by_divergence l).filter (fun g => divergence g == c)
      = l.filter (fun g => divergence g == c) := by
  induction l with
  | nil => rfl
  | cons x xs ih =>
    show (insertDesc x (sort_by_divergence xs)).filter _ = _
    rw [insertDesc_filter_key, List.filter_cons, List.filter_cons, ih]

theorem mem_keys_insertGroup (m : List (Nat × List SGRec)) (g : SGRec) (t : Nat) :
    t ∈ (insertGroup m g).map Prod.fst ↔ t ∈ m.map Prod.fst ∨ t = g.tenantId := by
  induction m with
  | nil => simp [insertGroup]
  | cons hd tl ih =>
    obtain ⟨t', gs⟩ := hd
    show t ∈ (if t' = g.tenantId then (t', gs ++ [g]) :: tl
              else (t', gs) :: insertGroup tl g).map Prod.fst ↔ _
    by_cases h : t' = g.tenantId
    · rw [if_pos h]
      simp [h]
      tauto
    · rw [if_neg h]
      simp [ih]
      tauto

theorem mem_keys_foldl_insertGroup (gs : List SGRec) :
    ∀ (m : List (Nat × List SGRec)) (t : Nat),
      t ∈ (List.foldl insertGroup m gs).map Prod.fst ↔
        t ∈ m.map Prod.fst ∨ ∃ r ∈ gs, t = r.tenantId := by
  induction gs with
  | nil => simp
  | cons r rest ih =>
    intro m t
    show t ∈ (List.foldl insertGroup (insertGroup m r) rest).map Prod.fst ↔ _
    rw [ih (insertGroup m r) t, mem_keys_insertGroup]
    simp
    tauto

/-- Every tenant appearing in the rows owns a bucket of the grouping. -/
theorem tenant_mem_groupby (gs : List SGRec) (g : SGRec) (hg : g ∈ gs) :
    g.tenantId ∈ (groupby_tenant gs).map Prod.fst := by
  unfold groupby_tenant
  rw [mem_keys_foldl_insertGroup]
  right
  exact ⟨g, hg, rfl⟩

/-- If any listed tenant's enrichment fails, the whole gather produces an
error. -/
theorem gatherTenantMetrics_error {ε : Type} (enrich : Nat → Except ε ServersMap) :
    ∀ (m : List (Nat × List SGRec)) (t : Nat), t ∈ m.map Prod.fst →
      (∃ e, enrich t = Except.error e) →
      ∃ e2, gatherTenantMetrics enrich m = Except.error e2 := by
  intro m
  induction m with
  | nil => simp
  | cons hd tl ih =>
    obtain ⟨t', gs⟩ := hd
    intro t hmem he
    obtain ⟨e, he⟩ := he
    rcases List.mem_cons.mp hmem with h | h
    · subst h
      exact ⟨e, by simp [gatherTenantMetrics, he]⟩
    · cases henr : enrich t' with
      | error e3 => exact ⟨e3, by simp [gatherTenantMetrics, henr]⟩
      | ok servers =>
        obtain ⟨e2, he2⟩ := ih t h ⟨e, he⟩
        exact ⟨e2, by simp [gatherTenantMetrics, henr, he2]⟩

/-- Shape of each emitted metric: it comes from a group row, copies the
tenant argument, the row's group id and `desired`, and counts the looked-up
servers (all of them, split into ACTIVE and the rest) or is zero when the
group id is absent from the servers dict. -/
theorem get_tenant_metrics_mem (tenant_id : Nat) (groups : List SGRec)
    (servers : ServersMap) (m : GroupMetrics)
    (hm : m ∈ get_tenant_metrics tenant_id groups servers) :
    ∃ g ∈ groups, m.tenant_id = tenant_id ∧ m.group_id = g.groupId ∧
      m.desired = g.desired ∧
      ((servers.lookup g.groupId = none ∧ m.actual = 0 ∧ m.pending = 0) ∨
       (∃ ss, servers.lookup g.groupId = some ss ∧
         m.actual = (ss.filter (fun s => s.status == "ACTIVE")).length ∧
         m.pending = ss.length - m.actual)) := by
  obtain ⟨g, hg, hfg⟩ := List.mem_map.mp hm
  cases hlook : servers.lookup g.groupId with
  | none =>
    simp only [hlook] at hfg
    cases hfg
    exact ⟨g, hg, rfl, rfl, rfl, Or.inl ⟨hlook, rfl, rfl⟩⟩
  | some ss =>
    simp only [hlook] at hfg
    cases hfg
    exact ⟨g, hg, rfl, rfl, rfl, Or.inr ⟨ss, hlook, rfl, rfl⟩⟩

/-- Store used by the example scenarios: tenant 0 owns groups 0 and 1,
tenant 1 owns group 0; with page size 2 the first page ends exactly at
tenant 0's last group. -/
def rowsA : List SGRec :=
  [⟨0, 0, some 1, some 0⟩, ⟨0, 1, some 1, some 0⟩, ⟨1, 0, some 1, some 0⟩]

/-- Store with an invalid row (null `desired`) at tenant 1, group 1. -/
def rowsB : List SGRec :=
  [⟨0, 0, some 1, some 0⟩, ⟨0, 1, some 1, some 0⟩, ⟨1, 0, some 1, some 0⟩,
   ⟨1, 1, none, some 0⟩]

/-- Inventory used by the example scenarios: group 1 is tagged by three
ACTIVE servers and two BUILD servers. -/
def serversA : ServersMap :=
  [(1, [⟨1, "ACTIVE", 10, 20⟩, ⟨2, "ACTIVE", 10, 20⟩, ⟨3, "ACTIVE", 10, 20⟩,
        ⟨4, "BUILD", 10, 20⟩, ⟨5, "BUILD", 10, 20⟩])]

/-- Inventory whose group 0 servers disagree on flavor. -/
def serversB : ServersMap :=
  [(0, [⟨1, "ACTIVE", 10, 20⟩, ⟨2, "ACTIVE", 11, 20⟩])]

/-- C1: for every store content of M records and every page size P ≥ 1, the
partition scan (`get_scaling_groups` before filtering) yields exactly M
records with M distinct (tenantId, groupId) pairs - no duplicates and no
omissions - regardless of how tenant and group boundaries fall relative to
P: on a store listed in partition order the accumulated scan equals the
store itself, and its key pairs are pairwise distinct. -/
theorem claim_c1_scan_exact (rows : List SGRec) (bs : Nat)
    (hp : rows.Pairwise keyLt) (hbs : 1 ≤ bs) :
    scan_groups rows bs = rows ∧
      ((scan_groups rows bs).map (fun r => (r.tenantId, r.groupId))).Nodup := by
  have h := scan_groups_exact rows bs hbs hp
  refine ⟨h, ?_⟩
  rw [h]
  exact keys_nodup rows hp

/-- Witness for C1 at the spec's scenario: three records, page size 2, the
tenant boundary inside the first page. -/
theorem claim_c1_scan_exact_witness :
    rowsA.Pairwise keyLt ∧ 1 ≤ 2 ∧
      (scan_groups rowsA 2 = rowsA ∧
        ((scan_groups rowsA 2).map (fun r => (r.tenantId, r.groupId))).Nodup) :=
  ⟨by decide, by decide, claim_c1_scan_exact rowsA 2 (by decide) (by decide)⟩

/-- C2: every metric emitted by `get_tenant_metrics` has actual = 0 and
pending = 0 when no supplied server is tagged with its group id; otherwise
actual counts the tagged ACTIVE servers and pending the tagged servers of
any other status; in every case actual + pending equals the total number of
servers tagged with the metric's group id. -/
theorem claim_c2_group_counts (tenant_id : Nat) (groups : List SGRec)
    (servers : ServersMap) (m : GroupMetrics)
    (hm : m ∈ get_tenant_metrics tenant_id groups servers) :
    (servers.lookup m.group_id = none → m.actual = 0 ∧ m.pending = 0) ∧
    (∀ ss, servers.lookup m.group_id = some ss →
      m.actual = (ss.filter (fun s => s.status == "ACTIVE")).length ∧
      m.pending = (ss.filter (fun s => !(s.status == "ACTIVE"))).length) ∧
    m.actual + m.pending = ((servers.lookup m.group_id).getD []).length := by
  obtain ⟨g, hg, hmt, hmg, hmd, hcase⟩ :=
    get_tenant_metrics_mem tenant_id groups servers m hm
  rw [hmg]
  rcases hcase with ⟨hnone, ha, hp2⟩ | ⟨ss, hsome, ha, hp2⟩
  · refine ⟨fun _ => ⟨ha, hp2⟩, ?_, ?_⟩
    · intro ss hss
      rw [hnone] at hss
      cases hss
    · rw [hnone, ha, hp2]
      rfl
  · have hsplit : ss.length = (ss.filter (fun s => s.status == "ACTIVE")).length
        + (ss.filter (fun s => !(s.status == "ACTIVE"))).length :=
      List.length_eq_length_filter_add (fun s => s.status == "ACTIVE")
    refine ⟨?_, ?_, ?_⟩
    · intro hnone2
      rw [hsome] at hnone2
      cases hnone2
    · intro ss2 hss2
      rw [hsome] at hss2
      injection hss2 with h3
      subst h3
      exact ⟨ha, by omega⟩
    · rw [hsome, Option.getD_some]
      omega

/-- Witness for C2 at the spec's scenario: desired 5, three ACTIVE and two
BUILD servers tagged with the group, giving the metric (5, 3, 2). -/
theorem claim_c2_group_counts_witness :
    (⟨7, 1, some 5, 3, 2⟩ : GroupMetrics)
        ∈ get_tenant_metrics 7 [⟨7, 1, some 5, some 0⟩] serversA ∧
      ((serversA.lookup (⟨7, 1, some 5, 3, 2⟩ : GroupMetrics).group_id = none →
          (⟨7, 1, some 5, 3, 2⟩ : GroupMetrics).actual = 0 ∧
          (⟨7, 1, some 5, 3, 2⟩ : GroupMetrics).pending = 0) ∧
       (∀ ss, serversA.lookup (⟨7, 1, some 5, 3, 2⟩ : GroupMetrics).group_id
            = some ss →
          (⟨7, 1, some 5, 3, 2⟩ : GroupMetrics).actual
            = (ss.filter (fun s => s.status == "ACTIVE")).length ∧
          (⟨7, 1, some 5, 3, 2⟩ : GroupMetrics).pending
            = (ss.filter (fun s => !(s.status == "ACTIVE"))).length) ∧
       (⟨7, 1, some 5, 3, 2⟩ : GroupMetrics).actual
           + (⟨7, 1, some 5, 3, 2⟩ : GroupMetrics).pending
         = ((serversA.lookup (⟨7, 1, some 5, 3, 2⟩ : GroupMetrics).group_id).getD
            []).length) :=
  ⟨by decide, claim_c2_group_counts 7 [⟨7, 1, some 5, some 0⟩] serversA
    ⟨7, 1, some 5, 3, 2⟩ (by decide)⟩

/-- C3: the record filter is order-preserving (the output is a sublist of
the scanned records); a record is kept iff it passes desired-not-null,
createdAt-not-null and the caller-supplied predicate; records failing a
check are silently dropped (the filter is a total function, not an error
path); and, reflecting the left-to-right short-circuit order, the output
only depends on the caller predicate's values at records that already pass
both null checks. -/
theorem claim_c3_record_filter (rows : List SGRec) (bs : Nat)
    (group_pred : SGRec → Bool) :
    (get_scaling_groups rows bs group_pred).Sublist (scan_groups rows bs) ∧
    (∀ r, r ∈ get_scaling_groups rows bs group_pred ↔
      r ∈ scan_groups rows bs ∧ has_desired r = true ∧
        has_created_at r = true ∧ group_pred r = true) ∧
    (∀ pred2 : SGRec → Bool,
      (∀ r ∈ scan_groups rows bs, has_desired r = true →
        has_created_at r = true → group_pred r = pred2 r) →
      get_scaling_groups rows bs group_pred
        = get_scaling_groups rows bs pred2) := by
  refine ⟨List.filter_sublist _, ?_, ?_⟩
  · intro r
    unfold get_scaling_groups group_filter
    rw [List.mem_filter]
    simp only [predicate_all, List.all_cons, List.all_nil, Bool.and_true,
      Bool.and_eq_true]
  · intro pred2 hagree
    unfold get_scaling_groups group_filter
    apply List.filter_congr
    intro r hr
    simp only [predicate_all, List.all_cons, List.all_nil, Bool.and_true]
    cases hd : has_desired r with
    | false => simp [hd]
    | true =>
      cases hc : has_created_at r with
      | false => simp [hc]
      | true => simp [hagree r hr hd hc]

/-- Witness for C3: on a store with an invalid row, a predicate is
interchangeable with any predicate agreeing on the valid rows. -/
theorem claim_c3_record_filter_witness :
    get_scaling_groups rowsB 2 (fun _ => true)
      = get_scaling_groups rowsB 2 (fun g => g.desired.isSome) :=
  (claim_c3_record_filter rowsB 2 (fun _ => true)).2.2
    (fun g => g.desired.isSome) (fun r hr hd hc => hd.symm)

/-- C4: the final report's sort is a permutation ordered by descending
divergence abs(desired - actual) and stable: elements of equal divergence
keep their input order (their filtered subsequence is unchanged); on the
spec's scenario, divergences 1, 10, 3 come out in the order 10, 3, 1. -/
theorem claim_c4_divergence_sort (l : List GroupMetrics) :
    (sort_by_divergence l).Perm l ∧
    (sort_by_divergence l).Pairwise (fun a b => divergence b ≤ divergence a) ∧
    (∀ c, (sort_by_divergence l).filter (fun g => divergence g == c)
      = l.filter (fun g => divergence g == c)) ∧
    sort_by_divergence
        [⟨0, 1, some 3, 2, 0⟩, ⟨0, 2, some 12, 2, 0⟩, ⟨0, 3, some 5, 2, 0⟩]
      = [⟨0, 2, some 12, 2, 0⟩, ⟨0, 3, some 5, 2, 0⟩, ⟨0, 1, some 3, 2, 0⟩] :=
  ⟨sort_by_divergence_perm l, sort_by_divergence_sorted l,
    fun c => sort_by_divergence_stable l c, by decide⟩

/-- C5: if the enrichment of any tenant appearing in the scanned rows
fails, the whole fan-out fails: `get_all_metrics` returns an error and no
(partial) list of metrics is ever delivered. -/
theorem claim_c5_all_or_nothing {ε : Type} (cass_groups : List SGRec)
    (enrich : Nat → Except ε ServersMap) (g : SGRec) (e : ε)
    (hg : g ∈ cass_groups) (he : enrich g.tenantId = Except.error e) :
    (∃ e2, get_all_metrics cass_groups enrich = Except.error e2) ∧
      ∀ ms, get_all_metrics cass_groups enrich ≠ Except.ok ms := by
  obtain ⟨e2, he2⟩ := gatherTenantMetrics_error enrich (groupby_tenant cass_groups)
    g.tenantId (tenant_mem_groupby cass_groups g hg) ⟨e, he⟩
  constructor
  · exact ⟨e2, he2⟩
  · intro ms hok
    unfold get_all_metrics at hok
    rw [he2] at hok
    exact Except.noConfusion hok

/-- Enrichment stub failing for tenant 1 only. -/
def enrichW : Nat → Except String ServersMap :=
  fun t => if t == 1 then Except.error ("nova down") else Except.ok serversA

/-- Witness for C5: tenant 1 appears in the store and its enrichment fails,
so the whole batch errors. -/
theorem claim_c5_all_or_nothing_witness :
    (⟨1, 0, some 1, some 0⟩ : SGRec) ∈ rowsA ∧
      enrichW (⟨1, 0, some 1, some 0⟩ : SGRec).tenantId
        = Except.error ("nova down") ∧
      ((∃ e2, get_all_metrics rowsA enrichW = Except.error e2) ∧
        ∀ ms, get_all_metrics rowsA enrichW ≠ Except.ok ms) :=
  ⟨by decide, rfl, claim_c5_all_or_nothing rowsA enrichW
    ⟨1, 0, some 1, some 0⟩ ("nova down") (by decide) rfl⟩

/-- C6 counterexample: on the sorted store `rowsA` with page size 2 the
query sequence is: the unconditioned page (tenant 0's two groups), a
within-tenant continuation returning the empty page (the first page ended
exactly at tenant 0's last group), a cross-tenant continuation bound to
tenant 0, and a final empty cross-tenant page.  The cross-tenant query's
cursor cannot be derived from the last element of the empty page
immediately preceding it, refuting the claim as stated. -/
theorem claim_c6_counterexample :
    rowsA.Pairwise keyLt ∧ 1 ≤ 2 ∧
      okContStrict (scanTrace rowsA 2) = false := by
  refine ⟨by decide, by decide, ?_⟩
  have htr : scanTrace rowsA 2 =
      [(Query.all, [⟨0, 0, some 1, some 0⟩, ⟨0, 1, some 1, some 0⟩]),
       (Query.key 0 1, []),
       (Query.token 0, [⟨1, 0, some 1, some 0⟩]),
       (Query.token 1, [])] := by
    simp [scanTrace, execAll, rowsA]
    rw [outerT]
    simp [execToken, execKey, pToken, pKey, dfltRec]
    rw [innerT]
    simp [execKey, pKey]
    rw [outerT]
    simp [execToken, pToken, dfltRec]
  rw [htr]
  decide

/-- C6 amended: every continuation query's cursor (the tenant and/or group
bound into its WHERE clause) is derived from the last element of the most
recent non-empty fetched page; in particular, when a within-tenant
continuation returns an empty page, the following cross-tenant query takes
its tenant from the last element of the latest non-empty page (whose last
row belongs to that same tenant), not from the empty page immediately
before it. -/
theorem claim_c6_amended (rows : List SGRec) (bs : Nat) (hbs : 1 ≤ bs) :
    traceOk (scanTrace rows bs) = true :=
  scanTrace_ok rows bs hbs

/-- Witness for the amended C6 on the counterexample store itself. -/
theorem claim_c6_amended_witness :
    1 ≤ 2 ∧ traceOk (scanTrace rowsA 2) = true :=
  ⟨by decide, claim_c6_amended rowsA 2 (by decide)⟩

/-- C7: drift detection for a group with tagged servers computes the set of
distinct (flavorId, imageId) pairs; drift is reported exactly when that set
has more than one element (equivalently, when two tagged servers disagree
on flavor or image); the report lists exactly the distinct pairs; servers
agreeing on both fields never produce a drift report. -/
theorem claim_c7_config_drift (tenant_id gid : Nat) (servers : ServersMap)
    (ss : List ServerRec) (hss : servers.lookup gid = some ss) :
    ((∃ r, detectDrift tenant_id gid servers = some r) ↔
      1 < ((ss.map serverConfig).toFinset.card)) ∧
    ((∃ r, detectDrift tenant_id gid servers = some r) ↔
      ∃ s1 ∈ ss, ∃ s2 ∈ ss, serverConfig s1 ≠ serverConfig s2) ∧
    (∀ r, detectDrift tenant_id gid servers = some r →
      r = (tenant_id, gid, (ss.map serverConfig).toFinset)) ∧
    ((∀ s1 ∈ ss, ∀ s2 ∈ ss, serverConfig s1 = serverConfig s2) →
      detectDrift tenant_id gid servers = none) := by
  have hdet : detectDrift tenant_id gid servers =
      if 1 < ((ss.map serverConfig).toFinset.card) then
        some (tenant_id, gid, (ss.map serverConfig).toFinset)
      else none := by
    unfold detectDrift
    rw [hss]
  have hcard_iff : 1 < ((ss.map serverConfig).toFinset.card) ↔
      ∃ s1 ∈ ss, ∃ s2 ∈ ss, serverConfig s1 ≠ serverConfig s2 := by
    rw [Finset.one_lt_card]
    constructor
    · rintro ⟨a, ha, b, hb, hab⟩
      rw [List.mem_toFinset] at ha hb
      obtain ⟨s1, hs1, rfl⟩ := List.mem_map.mp ha
      obtain ⟨s2, hs2, rfl⟩ := List.mem_map.mp hb
      exact ⟨s1, hs1, s2, hs2, hab⟩
    · rintro ⟨s1, hs1, s2, hs2, hne⟩
      exact ⟨serverConfig s1,
        List.mem_toFinset.mpr (List.mem_map.mpr ⟨s1, hs1, rfl⟩),
        serverConfig s2,
        List.mem_toFinset.mpr (List.mem_map.mpr ⟨s2, hs2, rfl⟩), hne⟩
  by_cases hcard : 1 < ((ss.map serverConfig).toFinset.card)
  · rw [hdet, if_pos hcard]
    refine ⟨⟨fun _ => hcard, fun _ => ⟨_, rfl⟩⟩,
      ⟨fun _ => hcard_iff.mp hcard, fun _ => ⟨_, rfl⟩⟩, ?_, ?_⟩
    · intro r hr
      injection hr with h2
      exact h2.symm
    · intro hagree
      exfalso
      obtain ⟨s1, hs1, s2, hs2, hne⟩ := hcard_iff.mp hcard
      exact hne (hagree s1 hs1 s2 hs2)
  · rw [hdet, if_neg hcard]
    refine ⟨⟨fun h => ?_, fun h => absurd h hcard⟩,
      ⟨fun h => ?_, fun h => absurd (hcard_iff.mpr h) hcard⟩,
      fun r hr => absurd hr (by simp), fun _ => rfl⟩
    · obtain ⟨r, hr⟩ := h
      exact absurd hr (by simp)
    · obtain ⟨r, hr⟩ := h
      exact absurd hr (by simp)

/-- Witness for C7: two servers of group 0 disagree on flavor, so drift is
reported with both (flavor, image) pairs. -/
theorem claim_c7_config_drift_witness :
    serversB.lookup 0 = some [⟨1, "ACTIVE", 10, 20⟩, ⟨2, "ACTIVE", 11, 20⟩] ∧
      (((∃ r, detectDrift 9 0 serversB = some r) ↔
        1 < ((([⟨1, "ACTIVE", 10, 20⟩,
          (⟨2, "ACTIVE", 11, 20⟩ : ServerRec)].map serverConfig)).toFinset.card)) ∧
      ((∃ r, detectDrift 9 0 serversB = some r) ↔
        ∃ s1 ∈ [⟨1, "ACTIVE", 10, 20⟩, (⟨2, "ACTIVE", 11, 20⟩ : ServerRec)],
          ∃ s2 ∈ [⟨1, "ACTIVE", 10, 20⟩, (⟨2, "ACTIVE", 11, 20⟩ : ServerRec)],
            serverConfig s1 ≠ serverConfig s2) ∧
      (∀ r, detectDrift 9 0 serversB = some r →
        r = (9, 0, (([⟨1, "ACTIVE", 10, 20⟩,
          (⟨2, "ACTIVE", 11, 20⟩ : ServerRec)].map serverConfig)).toFinset)) ∧
      ((∀ s1 ∈ [⟨1, "ACTIVE", 10, 20⟩, (⟨2, "ACTIVE", 11, 20⟩ : ServerRec)],
          ∀ s2 ∈ [⟨1, "ACTIVE", 10, 20⟩, (⟨2, "ACTIVE", 11, 20⟩ : ServerRec)],
            serverConfig s1 = serverConfig s2) →
        detectDrift 9 0 serversB = none)) :=
  ⟨rfl, claim_c7_config_drift 9 0 serversB
    [⟨1, "ACTIVE", 10, 20⟩, ⟨2, "ACTIVE", 11, 20⟩] rfl⟩

/-- C9: one metric per input group row, in input order; group_id and
desired are copied unchanged from the corresponding row, and tenant_id
(taken by the code from the function argument) equals each row's tenantId
whenever the rows are the tenant's own. -/
theorem claim_c9_per_group (tenant_id : Nat) (groups : List SGRec)
    (servers : ServersMap) (htid : ∀ g ∈ groups, g.tenantId = tenant_id) :
    (get_tenant_metrics tenant_id groups servers).length = groups.length ∧
    ∀ (i : Nat) (hi : i < groups.length)
      (hi2 : i < (get_tenant_metrics tenant_id groups servers).length),
      ((get_tenant_metrics tenant_id groups servers).get ⟨i, hi2⟩).tenant_id
          = (groups.get ⟨i, hi⟩).tenantId ∧
      ((get_tenant_metrics tenant_id groups servers).get ⟨i, hi2⟩).group_id
          = (groups.get ⟨i, hi⟩).groupId ∧
      ((get_tenant_metrics tenant_id groups servers).get ⟨i, hi2⟩).desired
          = (groups.get ⟨i, hi⟩).desired := by
  constructor
  · unfold get_tenant_metrics
    exact List.length_map _ _
  · intro i hi hi2
    have htg : groups[i].tenantId = tenant_id :=
      htid _ (List.getElem_mem hi)
    simp only [List.get_eq_getElem]
    unfold get_tenant_metrics
    simp only [List.getElem_map]
    cases hlook : servers.lookup groups[i].groupId with
    | none => simp [hlook, htg]
    | some ss => simp [hlook, htg]

/-- Tenant 3's group rows, used by the C9 witness. -/
def groupsW : List SGRec := [⟨3, 4, some 2, some 5⟩, ⟨3, 6, some 1, some 5⟩]

/-- Witness for C9 on two concrete rows of one tenant. -/
theorem claim_c9_per_group_witness :
    (∀ g ∈ groupsW, g.tenantId = 3) ∧
      ((get_tenant_metrics 3 groupsW serversA).length = groupsW.length ∧
       ∀ (i : Nat) (hi : i < groupsW.length)
         (hi2 : i < (get_tenant_metrics 3 groupsW serversA).length),
         ((get_tenant_metrics 3 groupsW serversA).get ⟨i, hi2⟩).tenant_id
             = (groupsW.get ⟨i, hi⟩).tenantId ∧
         ((get_tenant_metrics 3 groupsW serversA).get ⟨i, hi2⟩).group_id
             = (groupsW.get ⟨i, hi⟩).groupId ∧
         ((get_tenant_metrics 3 groupsW serversA).get ⟨i, hi2⟩).desired
             = (groupsW.get ⟨i, hi⟩).desired) :=
  ⟨by decide, claim_c9_per_group 3 groupsW serversA (by decide)⟩

/-- C10: a server entry whose group id matches no scanned group row of the
tenant is ignored everywhere: prepending it to the servers dict changes
neither the metrics (hence no totals) nor the drift reports, because both
computations iterate over the tenant's group rows only. -/
theorem claim_c10_unmatched_servers (tenant_id gid : Nat) (groups : List SGRec)
    (servers : ServersMap) (ss : List ServerRec)
    (hnot : gid ∉ groups.map (fun g => g.groupId)) :
    get_tenant_metrics tenant_id groups ((gid, ss) :: servers)
        = get_tenant_metrics tenant_id groups servers ∧
    check_tenant_config tenant_id groups ((gid, ss) :: servers)
        = check_tenant_config tenant_id groups servers := by
  have hlook : ∀ g ∈ groups,
      ((gid, ss) :: servers).lookup g.groupId = servers.lookup g.groupId := by
    intro g hg
    have hneq : ¬(g.groupId == gid) = true := by
      intro hc
      rw [beq_iff_eq] at hc
      exact hnot (hc ▸ List.mem_map.mpr ⟨g, hg, rfl⟩)
    rw [List.lookup_cons]
    cases hb : (g.groupId == gid) with
    | true => exact absurd hb hneq
    | false => rfl
  constructor
  · unfold get_tenant_metrics
    apply List.map_congr_left
    intro g hg
    rw [hlook g hg]
  · unfold check_tenant_config
    apply List.filterMap_congr
    intro g hg
    unfold detectDrift
    rw [hlook g hg]

/-- Witness for C10: a server tagged with the unknown group 5 changes
nothing. -/
theorem claim_c10_unmatched_servers_witness :
    (5 ∉ rowsA.map (fun g => g.groupId)) ∧
      (get_tenant_metrics 0 rowsA ((5, [⟨9, "ACTIVE", 1, 2⟩]) :: serversA)
          = get_tenant_metrics 0 rowsA serversA ∧
       check_tenant_config 0 rowsA ((5, [⟨9, "ACTIVE", 1, 2⟩]) :: serversA)
          = check_tenant_config 0 rowsA serversA) :=
  ⟨by decide, claim_c10_unmatched_servers 0 5 rowsA serversA
    [⟨9, "ACTIVE", 1, 2⟩] (by decide)⟩
